import Mathlib

/-!
Shallow embedding of `build_docs.py`, the reference-documentation generator of the
webgestaltpy repository, together with proofs about its behaviour.

Python strings are modelled as Lean `String` values (structures over `List Char`);
the Python `str` helpers the script uses (`split` on a one-character separator,
`join`, `strip`, `rstrip`, substring `in`) are modelled by the executable
functions below.  Python's `str.strip` and `str.isalnum` are Unicode-aware; the
model restricts them to ASCII (whitespace is modelled by the six ASCII whitespace
characters, alphanumericity by `Char.isAlphanum`), which is faithful on every
input considered here.

The external collaborator (the compiled `webgestaltpy` extension module) is
modelled by `PyModule`: a list of enumerated attribute names (`dir(webgestaltpy)`)
together with an optional documentation string per name (`getattr(...).__doc__`).
File writes are modelled by recording, in order, each `(path, content)` pair the
run produces; a file system is a map from paths to contents on which those
writes act last-writer-wins.
-/

namespace BuildDocs

/-- ASCII whitespace, as stripped by Python `str.strip` and `str.rstrip`. -/
def pyIsSpace (c : Char) : Bool :=
  c = ' ' || c = '\t' || c = '\n' || c = '\r' || c = '\x0b' || c = '\x0c'

/-- Remove the trailing characters satisfying `p`. -/
def dropTrailing (p : Char → Bool) (l : List Char) : List Char :=
  (l.reverse.dropWhile p).reverse

/-- Python `str.rstrip()` with no argument. -/
def pyRstrip (s : String) : String :=
  String.mk (dropTrailing pyIsSpace s.data)

/-- Python `str.strip()` with no argument. -/
def pyStrip (s : String) : String :=
  String.mk (dropTrailing pyIsSpace (s.data.dropWhile pyIsSpace))

/-- Python `pat in s` (substring containment), auxiliary: prefix test. -/
def startsWithList : List Char → List Char → Bool
  | [], _ => true
  | _ :: _, [] => false
  | p :: ps, c :: cs => p == c && startsWithList ps cs

/-- Python `pat in s` (substring containment), auxiliary: containment on lists. -/
def containsList (pat : List Char) : List Char → Bool
  | [] => startsWithList pat []
  | c :: cs => startsWithList pat (c :: cs) || containsList pat cs

/-- Python `pat in s`: `pat` occurs as a contiguous substring of `s`. -/
def strContains (s pat : String) : Bool :=
  containsList pat.data s.data

/-- Python `s.split(sep)` for a one-character separator, auxiliary:
returns the first piece and the remaining pieces. -/
def splitListAux (sep : Char) : List Char → List Char × List (List Char)
  | [] => ([], [])
  | c :: cs =>
    if c = sep then ([], (splitListAux sep cs).1 :: (splitListAux sep cs).2)
    else (c :: (splitListAux sep cs).1, (splitListAux sep cs).2)

/-- Python `s.split(sep)` for a one-character separator: keeps empty pieces,
and yields `[""]` on the empty string, exactly as Python does. -/
def splitList (sep : Char) (l : List Char) : List (List Char) :=
  (splitListAux sep l).1 :: (splitListAux sep l).2

/-- Python `sep.join(pieces)` for a one-character separator. -/
def joinList (sep : Char) : List (List Char) → List Char
  | [] => []
  | [t] => t
  | t :: u :: ts => t ++ sep :: joinList sep (u :: ts)

/-- Concatenation of a list of character lists (string accumulation). -/
def concatAll : List (List Char) → List Char
  | [] => []
  | l :: ls => l ++ concatAll ls

/-! ## The configuration constants of `build_docs.py` -/

/-- `ADJUSTED_HEADERS = ["#" * i for i in range(1, 7)]`. -/
def ADJUSTED_HEADERS : List String :=
  (List.range' 1 6).map (fun i => String.mk (List.replicate i '#'))

/-- `OUTPUT_DIR = "docs/reference"`. -/
def OUTPUT_DIR : String := "docs/reference"

/-- `PRIORITY = ["ora", "meta_ora", "gsea", "meta_gsea", "nta", "NTAMethod"]`. -/
def PRIORITY : List String := ["ora", "meta_ora", "gsea", "meta_gsea", "nta", "NTAMethod"]

/-- `SKIP = ["webgestaltpy"]`. -/
def SKIP : List String := ["webgestaltpy"]

/-- The configuration of a run: the output directory, priority list and skip
set.  In the source these are the module-level constants `OUTPUT_DIR`,
`PRIORITY` and `SKIP`; they are threaded explicitly so that runs under any
configuration can be reasoned about.  `defaultConfig` is the source's own. -/
structure Config where
  output_dir : String
  priority : List String
  skip : List String

/-- The configuration the source file declares. -/
def defaultConfig : Config := ⟨OUTPUT_DIR, PRIORITY, SKIP⟩

/-- The external collaborator: `dir(webgestaltpy)` is `names`, and
`getattr(webgestaltpy, n).__doc__` is `doc n` (`none` models Python `None`). -/
structure PyModule where
  names : List String
  doc : String → Option String

/-! ## `sanitize_file_name` -/

/-- `keepcharacters = (" ", ".", "_")`. -/
def keepcharacters : List Char := [' ', '.', '_']

/-- `sanitize_file_name`: keep alphanumeric characters and the characters in
`keepcharacters`, then `rstrip` the result. -/
def sanitize_file_name (name : String) : String :=
  pyRstrip (String.mk (name.data.filter (fun c => c.isAlphanum || keepcharacters.contains c)))

/-! ## The heading normalizer inside `process_method` (lines 36 to 42) -/

/-- One token of a line: `if splits[i].strip() in ADJUSTED_HEADERS: splits[i] += "#"`. -/
def adjustToken (t : String) : String :=
  if ADJUSTED_HEADERS.contains (pyStrip t) then t ++ "#" else t

/-- One line of the documentation string: split on `" "`, adjust each token,
rejoin with `" ".join(...)`. -/
def normLine (line : List Char) : List Char :=
  joinList ' ' ((splitList ' ' line).map (fun t => (adjustToken (String.mk t)).data))

/-- The whole loop producing `new_doc_string`: for each line of
`doc_string.split("\n")`, the adjusted line followed by `"\n"`. -/
def normalizeDoc (doc : String) : String :=
  String.mk (concatAll ((splitList '\n' doc.data).map (fun l => normLine l ++ ['\n'])))

/-! ## `process_method` -/

/-- The content written to the page file:
`"# `" + name + "`\n" + new_doc_string + "\n"`. -/
def pageContent (name doc_string : String) : String :=
  "# `" ++ name ++ "`\n" ++ normalizeDoc doc_string ++ "\n"

/-- `process_method(name)`: returns the value Python returns (the sanitized
partial name, or `""` when the documentation is `None`) together with the file
write it performs (path and content), if any. -/
def process_method (cfg : Config) (m : PyModule) (name : String) : String × Option (String × String) :=
  match m.doc name with
  | none => ("", none)
  | some doc_string =>
    let partial_name := sanitize_file_name name
    (partial_name, some (cfg.output_dir ++ "/" ++ (partial_name ++ ".md"), pageContent name doc_string))

/-! ## `start` -/

/-- The result of a run: the page writes `(symbol name, path, content)` in the
order they are performed, and the index entries `(display name, partial name)`
in the order their link lines are appended to `new_content`. -/
structure RunResult where
  pages : List (String × String × String)
  entries : List (String × String)
deriving DecidableEq

/-- One loop iteration body of `start`: call `process_method`, record its write,
and append a link entry when the returned path is not `""`. -/
def stepName (cfg : Config) (m : PyModule) (acc : RunResult) (name : String) : RunResult :=
  let r := process_method cfg m name
  ⟨acc.pages ++ (match r.2 with | some pc => [(name, pc.1, pc.2)] | none => []),
   acc.entries ++ (if r.1 == "" then [] else [(name, r.1)])⟩

/-- `functions = [f for f in all_functions if "__" not in f and f not in SKIP]`. -/
def filteredFunctions (cfg : Config) (m : PyModule) : List String :=
  m.names.filter (fun f => !(strContains f "__") && !(cfg.skip.contains f))

/-- `start()`: the priority loop (`for p in PRIORITY: if p in functions: ...`)
followed by the remaining-functions loop (`for f in functions: if f not in PRIORITY: ...`). -/
def start (cfg : Config) (m : PyModule) : RunResult :=
  (filteredFunctions cfg m).foldl
    (fun acc f => if !(cfg.priority.contains f) then stepName cfg m acc f else acc)
    (cfg.priority.foldl
      (fun acc p => if (filteredFunctions cfg m).contains p then stepName cfg m acc p else acc)
      ⟨[], []⟩)

/-- The static header of `index.md`. -/
def INDEX_HEADER : String :=
  "# Reference\nDocumentation for each function in webgestaltpy.\n\n## Functions\n\n"

/-- One link line of the index: `"- [" + name + "](./" + path + ".md)\n"`. -/
def linkLine (name path : String) : String :=
  "- [" ++ name ++ "](./" ++ path ++ ".md)\n"

/-- The full content written to `index.md`: the header followed by the
accumulated link lines, in order. -/
def indexContent (r : RunResult) : String :=
  INDEX_HEADER ++ String.join (r.entries.map (fun e => linkLine e.1 e.2))

/-- The symbol names for which a page file write was performed. -/
def pageNames (cfg : Config) (m : PyModule) : List String :=
  (start cfg m).pages.map (fun p => p.1)

/-- The symbol names that received a link line in `index.md`. -/
def entryNames (cfg : Config) (m : PyModule) : List String :=
  (start cfg m).entries.map (fun e => e.1)

/-! ## The file system model (for idempotence) -/

/-- A file system: a map from path to file content. -/
abbrev FS := String → Option String

/-- Opening a file with mode `"w"` and writing `content` replaces the file. -/
def applyWrite (fs : FS) (w : String × String) : FS :=
  fun p => if p = w.1 then some w.2 else fs p

/-- Every file write of one run, in the order performed: the page files, then
`index.md`. -/
def runWrites (cfg : Config) (m : PyModule) : List (String × String) :=
  (start cfg m).pages.map (fun p => (p.2.1, p.2.2))
    ++ [(cfg.output_dir ++ "/index.md", indexContent (start cfg m))]

/-- The effect of one whole run on a file system. -/
def runOn (cfg : Config) (m : PyModule) (fs : FS) : FS :=
  (runWrites cfg m).foldl applyWrite fs

/-! ## Derived views of a run, used to characterise `start` -/

/-- The page write `process_method` performs for `n`, if any. -/
def pageOf (cfg : Config) (m : PyModule) (n : String) : Option (String × String × String) :=
  (m.doc n).map
    (fun d => (n, cfg.output_dir ++ "/" ++ (sanitize_file_name n ++ ".md"), pageContent n d))

/-- The index entry `start` records for `n`, if any: present exactly when the
documentation exists and the sanitized name is nonempty. -/
def entryOf (m : PyModule) (n : String) : Option (String × String) :=
  match m.doc n with
  | none => none
  | some _ =>
    if sanitize_file_name n == "" then none else some (n, sanitize_file_name n)

/-- The emission order of the run: priority names present in the filtered
catalog, in priority order, then the remaining filtered names in catalog
order. -/
def orderedNames (cfg : Config) (m : PyModule) : List String :=
  cfg.priority.filter (fun p => (filteredFunctions cfg m).contains p)
    ++ (filteredFunctions cfg m).filter (fun f => !(cfg.priority.contains f))

/-! ## Transformations asserted by the specification wording, for comparison -/

/-- A token composed entirely of 1 to 6 heading-marker characters. -/
def isPureHeaderToken (t : String) : Bool :=
  1 ≤ t.data.length && t.data.length ≤ 6 && t.data.all (fun c => c == '#')

/-- The per-token step C2's wording describes: append one marker character to a
token composed entirely of 1 to 6 marker characters, change any other token
not at all. -/
def claimTokenStep (t : List Char) : List Char :=
  if isPureHeaderToken (String.mk t) then t ++ ['#'] else t

/-- The normalizer C2's wording describes, reading its tokens as the
space-split tokens the code manipulates. -/
def claimNormalizeS (doc : String) : String :=
  String.mk (concatAll ((splitList '\n' doc.data).map
    (fun l => joinList ' ' ((splitList ' ' l).map claimTokenStep) ++ ['\n'])))

/-- The maximal whitespace-separated tokens of a line, for reading C2's
"whitespace-separated token" literally. -/
def wsTokens (l : List Char) : List (List Char) :=
  (splitList ' ' (l.map (fun c => if pyIsSpace c then ' ' else c))).filter
    (fun t => !t.isEmpty)

/-- The page layout C4's wording describes: a title line, then a blank line,
then the normalized body, then a trailing blank line. -/
def claimPageContent (name doc_string : String) : String :=
  "# `" ++ name ++ "`\n" ++ "\n" ++ normalizeDoc doc_string ++ "\n"

/-! ## Concrete collaborators used to evaluate the run at specific inputs -/

/-- A module exposing one documented symbol whose name sanitizes to `""`. -/
def mC1 : PyModule := ⟨["!!!"], fun n => if n == "!!!" then some "doc" else none⟩

/-- A module exposing one documented symbol `f`. -/
def mC4 : PyModule := ⟨["f"], fun n => if n == "f" then some "hello" else none⟩

/-- A module exposing one documented symbol `alpha`. -/
def mW1 : PyModule := ⟨["alpha"], fun n => if n == "alpha" then some "body" else none⟩

/-- A module exposing one documented priority symbol `ora`. -/
def mW5 : PyModule := ⟨["ora"], fun _ => some "x"⟩

/-- A module exposing `beta` (no documentation) and `alpha` (documented). -/
def mW6 : PyModule := ⟨["beta", "alpha"], fun n => if n == "alpha" then some "body" else none⟩

/-- A module exposing the skipped name `webgestaltpy` and `ora`, documented. -/
def mW8 : PyModule := ⟨["webgestaltpy", "ora"], fun _ => some "x"⟩

/-- A module exposing a documented name containing a double underscore in its
middle. -/
def mW10 : PyModule := ⟨["meta__extra"], fun _ => some "x"⟩

/-! ## Library lemmas about the string model -/

theorem contains_iff {α : Type} [BEq α] [LawfulBEq α] {l : List α} {a : α} :
    l.contains a = true ↔ a ∈ l :=
  List.elem_iff

theorem data_mk (l : List Char) : (String.mk l).data = l := rfl

theorem mk_data (s : String) : String.mk s.data = s := by
  cases s
  rfl

theorem joinList_splitList (sep : Char) (l : List Char) :
    joinList sep (splitList sep l) = l := by
  induction l with
  | nil => rfl
  | cons c cs ih =>
    unfold splitList at *
    rw [splitListAux]
    by_cases h : c = sep
    · rw [if_pos h]
      simp only [joinList]
      rw [List.nil_append, ih, h]
    · rw [if_neg h]
      cases h2 : (splitListAux sep cs).2 with
      | nil =>
        rw [h2] at ih
        simp only [joinList] at ih ⊢
        rw [ih]
      | cons u us =>
        rw [h2] at ih
        simp only [joinList] at ih ⊢
        rw [List.cons_append, ih]

theorem splitListAux_no_sep (sep : Char) (l : List Char) (h : sep ∉ l) :
    splitListAux sep l = (l, []) := by
  induction l with
  | nil => rfl
  | cons c cs ih =>
    rw [splitListAux]
    have hc : ¬ c = sep := fun hx => h (hx ▸ List.mem_cons_self c cs)
    rw [if_neg hc, ih (fun hx => h (List.mem_cons_of_mem c hx))]

theorem splitList_no_sep (sep : Char) (l : List Char) (h : sep ∉ l) :
    splitList sep l = [l] := by
  unfold splitList
  rw [splitListAux_no_sep sep l h]

theorem splitListAux_append_sep (sep : Char) (t r : List Char) (h : sep ∉ t) :
    splitListAux sep (t ++ sep :: r)
      = (t, (splitListAux sep r).1 :: (splitListAux sep r).2) := by
  induction t with
  | nil =>
    rw [List.nil_append, splitListAux, if_pos rfl]
  | cons a t ih =>
    rw [List.cons_append, splitListAux]
    have ha : ¬ a = sep := fun hx => h (hx ▸ List.mem_cons_self a t)
    rw [if_neg ha, ih (fun hx => h (List.mem_cons_of_mem a hx))]

theorem splitList_append_sep (sep : Char) (t r : List Char) (h : sep ∉ t) :
    splitList sep (t ++ sep :: r) = t :: splitList sep r := by
  unfold splitList
  rw [splitListAux_append_sep sep t r h]

theorem splitList_joinList (sep : Char) (t : List Char) (ts : List (List Char))
    (ht : sep ∉ t) (hts : ∀ x ∈ ts, sep ∉ x) :
    splitList sep (joinList sep (t :: ts)) = t :: ts := by
  induction ts generalizing t with
  | nil =>
    simp only [joinList]
    exact splitList_no_sep sep t ht
  | cons u us ih =>
    simp only [joinList]
    rw [splitList_append_sep sep t _ ht]
    have hu : sep ∉ u := hts u (List.mem_cons_self u us)
    have hus : ∀ x ∈ us, sep ∉ x := fun x hx => hts x (List.mem_cons_of_mem u hx)
    have := ih u hu hus
    simp only [joinList] at this
    rw [this]

theorem mem_splitList (sep : Char) (l : List Char) :
    ∀ t ∈ splitList sep l, ∀ c ∈ t, c ∈ l ∧ c ≠ sep := by
  induction l with
  | nil =>
    intro t ht c hc
    have : t = [] := by
      simpa [splitList, splitListAux] using ht
    rw [this] at hc
    exact absurd hc (List.not_mem_nil c)
  | cons a cs ih =>
    intro t ht c hc
    unfold splitList at ht
    rw [splitListAux] at ht
    by_cases ha : a = sep
    · rw [if_pos ha] at ht
      rcases List.mem_cons.mp ht with h1 | h1
      · rw [h1] at hc
        exact absurd hc (List.not_mem_nil c)
      · have := ih t h1 c hc
        exact ⟨List.mem_cons_of_mem a this.1, this.2⟩
    · rw [if_neg ha] at ht
      rcases List.mem_cons.mp ht with h1 | h1
      · rw [h1] at hc
        rcases List.mem_cons.mp hc with h2 | h2
        · rw [h2]
          exact ⟨List.mem_cons_self a cs, ha⟩
        · have := ih (splitListAux sep cs).1 (List.mem_cons_self _ _) c h2
          exact ⟨List.mem_cons_of_mem a this.1, this.2⟩
      · have := ih t (List.mem_cons_of_mem _ h1) c hc
        exact ⟨List.mem_cons_of_mem a this.1, this.2⟩

theorem mem_joinList (sep : Char) (c : Char) :
    ∀ ts : List (List Char), c ∈ joinList sep ts → c = sep ∨ ∃ t ∈ ts, c ∈ t := by
  intro ts
  induction ts with
  | nil =>
    intro h
    exact absurd h (List.not_mem_nil c)
  | cons t ts ih =>
    cases ts with
    | nil =>
      intro h
      simp only [joinList] at h
      exact Or.inr ⟨t, List.mem_cons_self t [], h⟩
    | cons u us =>
      intro h
      simp only [joinList] at h
      rcases List.mem_append.mp h with h1 | h1
      · exact Or.inr ⟨t, List.mem_cons_self _ _, h1⟩
      · rcases List.mem_cons.mp h1 with h2 | h2
        · exact Or.inl h2
        · rcases ih h2 with h3 | ⟨x, hx, hcx⟩
          · exact Or.inl h3
          · exact Or.inr ⟨x, List.mem_cons_of_mem t hx, hcx⟩

theorem concatAll_append_last (c : Char) :
    ∀ ls : List (List Char), ls ≠ [] →
      ∃ l, concatAll (ls.map (fun x => x ++ [c])) = l ++ [c] := by
  intro ls
  induction ls with
  | nil => intro h; exact absurd rfl h
  | cons t ls ih =>
    intro _
    cases ls with
    | nil =>
      refine ⟨t, ?_⟩
      simp [concatAll]
    | cons u us =>
      rcases ih (by simp) with ⟨l, hl⟩
      refine ⟨t ++ c :: l, ?_⟩
      simp only [List.map_cons, concatAll] at hl ⊢
      rw [hl]
      simp

theorem splitList_concat (c : Char) :
    ∀ ls : List (List Char), (∀ x ∈ ls, c ∉ x) →
      splitList c (concatAll (ls.map (fun x => x ++ [c]))) = ls ++ [[]] := by
  intro ls
  induction ls with
  | nil =>
    intro _
    rfl
  | cons t ls ih =>
    intro h
    simp only [List.map_cons, concatAll]
    have : (t ++ [c]) ++ concatAll (ls.map (fun x => x ++ [c]))
        = t ++ c :: concatAll (ls.map (fun x => x ++ [c])) := by
      simp
    rw [this, splitList_append_sep c t _ (h t (List.mem_cons_self t ls)),
      ih (fun x hx => h x (List.mem_cons_of_mem t hx))]
    rfl

theorem dropWhile_all_false {p : Char → Bool} {l : List Char}
    (h : ∀ c ∈ l, p c = false) : l.dropWhile p = l := by
  cases l with
  | nil => rfl
  | cons a as =>
    rw [List.dropWhile_cons, h a (List.mem_cons_self a as)]
    simp

theorem head?_dropWhile {p : Char → Bool} {l : List Char} {c : Char}
    (h : (l.dropWhile p).head? = some c) : p c = false := by
  induction l with
  | nil => simp [List.dropWhile] at h
  | cons a as ih =>
    rw [List.dropWhile_cons] at h
    by_cases ha : p a = true
    · rw [if_pos ha] at h
      exact ih h
    · rw [if_neg ha] at h
      simp at h
      rw [h] at ha
      exact Bool.eq_false_iff.mpr ha

theorem dropTrailing_sublist (p : Char → Bool) (l : List Char) :
    (dropTrailing p l).Sublist l := by
  unfold dropTrailing
  have h := (List.dropWhile_sublist (l := l.reverse) p).reverse
  simpa using h

theorem dropTrailing_all_false {p : Char → Bool} {l : List Char}
    (h : ∀ c ∈ l, p c = false) : dropTrailing p l = l := by
  unfold dropTrailing
  rw [dropWhile_all_false (fun c hc => h c (List.mem_reverse.mp hc))]
  exact List.reverse_reverse l

theorem dropTrailing_getLast? {p : Char → Bool} {l : List Char} {c : Char}
    (h : (dropTrailing p l).getLast? = some c) : p c = false := by
  unfold dropTrailing at h
  rw [List.getLast?_reverse] at h
  exact head?_dropWhile h

/-! ## Characterisation of `start` -/

theorem filterMap_cons_toList {α β : Type} (f : α → Option β) (a : α) (l : List α) :
    List.filterMap f (a :: l) = (f a).toList ++ List.filterMap f l := by
  cases h : f a <;> simp [List.filterMap_cons, h]

theorem stepName_eq (cfg : Config) (m : PyModule) (acc : RunResult) (n : String) :
    stepName cfg m acc n
      = ⟨acc.pages ++ (pageOf cfg m n).toList, acc.entries ++ (entryOf m n).toList⟩ := by
  unfold stepName process_method pageOf entryOf
  cases h : m.doc n with
  | none => simp [h]
  | some d =>
    by_cases hs : sanitize_file_name n == ""
    · simp [h, hs]
    · simp [h, hs]

theorem foldl_step_eq (cfg : Config) (m : PyModule) (q : String → Bool) :
    ∀ (l : List String) (acc : RunResult),
      l.foldl (fun a x => if q x then stepName cfg m a x else a) acc
        = ⟨acc.pages ++ (List.filter q l).filterMap (pageOf cfg m),
           acc.entries ++ (List.filter q l).filterMap (entryOf m)⟩ := by
  intro l
  induction l with
  | nil => intro acc; simp
  | cons x l ih =>
    intro acc
    rw [List.foldl_cons, List.filter_cons]
    cases hq : q x with
    | false => simp [hq, ih acc]
    | true =>
      simp only [hq, if_true]
      rw [ih (stepName cfg m acc x), stepName_eq,
        filterMap_cons_toList, filterMap_cons_toList]
      congr 1 <;> simp [List.append_assoc]

theorem start_pages (cfg : Config) (m : PyModule) :
    (start cfg m).pages = (orderedNames cfg m).filterMap (pageOf cfg m) := by
  unfold start orderedNames
  rw [foldl_step_eq, foldl_step_eq]
  simp only [List.nil_append, List.filterMap_append]

theorem start_entries (cfg : Config) (m : PyModule) :
    (start cfg m).entries = (orderedNames cfg m).filterMap (entryOf m) := by
  unfold start orderedNames
  rw [foldl_step_eq, foldl_step_eq]
  simp only [List.nil_append, List.filterMap_append]

theorem pageOf_some_fst {cfg : Config} {m : PyModule} {a : String}
    {x : String × String × String} (h : pageOf cfg m a = some x) :
    x.1 = a ∧ (m.doc a).isSome := by
  unfold pageOf at h
  cases hd : m.doc a with
  | none => rw [hd] at h; simp at h
  | some d =>
    rw [hd] at h
    simp only [Option.map_some'] at h
    cases h
    exact ⟨rfl, rfl⟩

theorem entryOf_some {m : PyModule} {a : String} {x : String × String}
    (h : entryOf m a = some x) :
    x.1 = a ∧ (m.doc a).isSome ∧ sanitize_file_name a ≠ "" := by
  unfold entryOf at h
  cases hd : m.doc a with
  | none => rw [hd] at h; simp at h
  | some d =>
    rw [hd] at h
    by_cases hs : sanitize_file_name a == ""
    · rw [if_pos hs] at h
      simp at h
    · rw [if_neg hs] at h
      cases h
      refine ⟨rfl, rfl, ?_⟩
      intro he
      exact hs (by rw [he]; rfl)

theorem mem_pageNames {cfg : Config} {m : PyModule} {n : String} :
    n ∈ pageNames cfg m ↔ n ∈ orderedNames cfg m ∧ (m.doc n).isSome := by
  unfold pageNames
  rw [start_pages]
  simp only [List.mem_map, List.mem_filterMap]
  constructor
  · rintro ⟨x, ⟨a, ha, hx⟩, hfst⟩
    rcases pageOf_some_fst hx with ⟨h1, h2⟩
    rw [← hfst, h1]
    exact ⟨ha, h2⟩
  · rintro ⟨ha, hd⟩
    cases hdoc : m.doc n with
    | none => rw [hdoc] at hd; simp at hd
    | some d =>
      exact ⟨(n, cfg.output_dir ++ "/" ++ (sanitize_file_name n ++ ".md"), pageContent n d),
        ⟨n, ha, by unfold pageOf; rw [hdoc]; rfl⟩, rfl⟩

theorem mem_entryNames {cfg : Config} {m : PyModule} {n : String} :
    n ∈ entryNames cfg m
      ↔ n ∈ orderedNames cfg m ∧ (m.doc n).isSome ∧ sanitize_file_name n ≠ "" := by
  unfold entryNames
  rw [start_entries]
  simp only [List.mem_map, List.mem_filterMap]
  constructor
  · rintro ⟨x, ⟨a, ha, hx⟩, hfst⟩
    rcases entryOf_some hx with ⟨h1, h2, h3⟩
    rw [← hfst, h1]
    exact ⟨ha, h2, h3⟩
  · rintro ⟨ha, hd, hs⟩
    cases hdoc : m.doc n with
    | none => rw [hdoc] at hd; simp at hd
    | some d =>
      refine ⟨(n, sanitize_file_name n), ⟨n, ha, ?_⟩, rfl⟩
      unfold entryOf
      rw [hdoc, if_neg (fun hb => hs (by simpa using hb))]

theorem mem_orderedNames_sub {cfg : Config} {m : PyModule} {n : String}
    (h : n ∈ orderedNames cfg m) : n ∈ filteredFunctions cfg m := by
  unfold orderedNames at h
  rcases List.mem_append.mp h with h1 | h1
  · exact contains_iff.mp (List.mem_filter.mp h1).2
  · exact (List.mem_filter.mp h1).1

theorem mem_filteredFunctions_props {cfg : Config} {m : PyModule} {n : String}
    (h : n ∈ filteredFunctions cfg m) :
    strContains n "__" = false ∧ n ∉ cfg.skip := by
  unfold filteredFunctions at h
  have h2 := (List.mem_filter.mp h).2
  refine ⟨?_, fun hmem => ?_⟩
  · cases hb : strContains n "__" with
    | false => rfl
    | true => rw [hb] at h2; simp at h2
  · rw [contains_iff.mpr hmem] at h2
    simp at h2

/-! ## Removing an undocumented name from the catalog -/

theorem filterMap_filter_ne {α β : Type} [BEq α] [LawfulBEq α]
    {f : α → Option β} {x : α} (hf : f x = none) :
    ∀ l : List α, (l.filter (fun a => !(a == x))).filterMap f = l.filterMap f := by
  intro l
  induction l with
  | nil => rfl
  | cons a l ih =>
    rw [List.filter_cons]
    by_cases ha : a = x
    · subst ha
      simp only [beq_self_eq_true, Bool.not_true, Bool.false_eq_true, if_false]
      rw [ih, filterMap_cons_toList, hf]
      rfl
    · rw [beq_eq_false_iff_ne.mpr ha]
      simp only [Bool.not_false, if_true]
      rw [filterMap_cons_toList, filterMap_cons_toList, ih]

theorem contains_filter_ne {α : Type} [BEq α] [LawfulBEq α] (l : List α) (x p : α) :
    (l.filter (fun a => !(a == x))).contains p = (l.contains p && !(p == x)) := by
  induction l with
  | nil => simp
  | cons a l ih =>
    rw [List.filter_cons]
    by_cases ha : a = x
    · subst ha
      simp only [beq_self_eq_true, Bool.not_true, Bool.false_eq_true, if_false]
      rw [ih, List.contains_cons]
      by_cases hp : p = a
      · subst hp
        simp
      · rw [beq_eq_false_iff_ne.mpr hp]
        simp
    · rw [beq_eq_false_iff_ne.mpr ha]
      simp only [Bool.not_false, if_true]
      rw [List.contains_cons, List.contains_cons, ih]
      by_cases hp : p = x
      · subst hp
        rw [beq_eq_false_iff_ne.mpr (fun h => ha h.symm)]
        simp
      · rw [beq_eq_false_iff_ne.mpr hp]
        simp

/-- Dropping an enumerated name from the collaborator commutes with the
catalog filter. -/
theorem filteredFunctions_removeName (cfg : Config) (m : PyModule) (x : String) :
    filteredFunctions cfg ⟨m.names.filter (fun f => !(f == x)), m.doc⟩
      = (filteredFunctions cfg m).filter (fun f => !(f == x)) := by
  unfold filteredFunctions
  rw [List.filter_filter, List.filter_filter]
  exact List.filter_congr (fun a _ => Bool.and_comm _ _)

/-- A run does not change at all when a name whose documentation is absent is
removed from the collaborator's enumeration. -/
theorem start_removeName (cfg : Config) (m : PyModule) (x : String)
    (hdoc : m.doc x = none) :
    start cfg ⟨m.names.filter (fun f => !(f == x)), m.doc⟩ = start cfg m := by
  have hpage : pageOf cfg m x = none := by
    unfold pageOf
    rw [hdoc]
    rfl
  have hentry : entryOf m x = none := by
    unfold entryOf
    rw [hdoc]
  have heta : ∀ r : RunResult, r = ⟨r.pages, r.entries⟩ := fun r => rfl
  rw [heta (start cfg ⟨m.names.filter (fun f => !(f == x)), m.doc⟩), heta (start cfg m),
    start_pages, start_pages, start_entries, start_entries]
  have hord : ∀ {β : Type} (F : String → Option β), F x = none →
      (orderedNames cfg ⟨m.names.filter (fun f => !(f == x)), m.doc⟩).filterMap F
        = (orderedNames cfg m).filterMap F := by
    intro β F hF
    unfold orderedNames
    rw [filteredFunctions_removeName, List.filterMap_append, List.filterMap_append]
    have h1 : (cfg.priority.filter
          (fun p => ((filteredFunctions cfg m).filter (fun f => !(f == x))).contains p))
        = (cfg.priority.filter
            (fun p => (filteredFunctions cfg m).contains p)).filter (fun p => !(p == x)) := by
      rw [List.filter_filter]
      exact List.filter_congr (fun a _ => by rw [contains_filter_ne, Bool.and_comm])
    have h2 : ((filteredFunctions cfg m).filter (fun f => !(f == x))).filter
          (fun f => !(cfg.priority.contains f))
        = ((filteredFunctions cfg m).filter
            (fun f => !(cfg.priority.contains f))).filter (fun f => !(f == x)) := by
      rw [List.filter_filter, List.filter_filter]
      exact List.filter_congr (fun a _ => Bool.and_comm _ _)
    rw [h1, h2, filterMap_filter_ne hF, filterMap_filter_ne hF]
  have hpq : pageOf cfg ⟨m.names.filter (fun f => !(f == x)), m.doc⟩ = pageOf cfg m := rfl
  have heq : entryOf ⟨m.names.filter (fun f => !(f == x)), m.doc⟩ = entryOf m := rfl
  rw [hpq, heq, hord (pageOf cfg m) hpage, hord (entryOf m) hentry]

/-! ## File-system lemmas -/

theorem foldl_applyWrite_lookup (ws : List (String × String)) (fs : FS) (p : String) :
    (ws.foldl applyWrite fs) p
      = match ws.reverse.find? (fun w => p == w.1) with
        | some w => some w.2
        | none => fs p := by
  induction ws generalizing fs with
  | nil => rfl
  | cons w ws ih =>
    rw [List.foldl_cons, ih]
    rw [List.reverse_cons, List.find?_append]
    cases h : ws.reverse.find? (fun v => p == v.1) with
    | some v => simp [h]
    | none =>
      simp only [h, Option.none_or]
      by_cases hp : p = w.1
      · rw [List.find?_cons, show (p == w.1) = true from by rw [hp]; exact beq_self_eq_true _]
        simp [applyWrite, hp]
      · rw [List.find?_cons, beq_eq_false_iff_ne.mpr hp]
        simp [applyWrite, hp]

theorem foldl_applyWrite_idem (ws : List (String × String)) (fs : FS) :
    ws.foldl applyWrite (ws.foldl applyWrite fs) = ws.foldl applyWrite fs := by
  funext p
  rw [foldl_applyWrite_lookup, foldl_applyWrite_lookup]
  cases h : ws.reverse.find? (fun w => p == w.1) with
  | some v => simp [h]
  | none => simp only [h]

/-! ## Emission order when every catalog entry is documented -/

theorem filterMap_entry_map_fst (m : PyModule) :
    ∀ l : List String, (∀ n ∈ l, ∃ v, entryOf m n = some (n, v)) →
      ((l.filterMap (entryOf m)).map (fun e => e.1)) = l := by
  intro l
  induction l with
  | nil => intro _; rfl
  | cons a l ih =>
    intro h
    rcases h a (List.mem_cons_self a l) with ⟨v, hv⟩
    rw [filterMap_cons_toList, hv]
    simp only [Option.toList, List.cons_append, List.nil_append, List.map_cons]
    rw [ih (fun n hn => h n (List.mem_cons_of_mem a hn))]

theorem entryOf_of_documented {m : PyModule} {n : String}
    (hd : (m.doc n).isSome) (hs : sanitize_file_name n ≠ "") :
    ∃ v, entryOf m n = some (n, v) := by
  cases hdoc : m.doc n with
  | none => rw [hdoc] at hd; simp at hd
  | some d =>
    refine ⟨sanitize_file_name n, ?_⟩
    unfold entryOf
    rw [hdoc, if_neg (fun hb => hs (by simpa using hb))]

theorem entries_names_eq (cfg : Config) (m : PyModule)
    (h : ∀ f ∈ filteredFunctions cfg m, (m.doc f).isSome ∧ sanitize_file_name f ≠ "") :
    (start cfg m).entries.map (fun e => e.1) = orderedNames cfg m := by
  rw [start_entries]
  apply filterMap_entry_map_fst
  intro n hn
  have hf := mem_orderedNames_sub hn
  exact entryOf_of_documented (h n hf).1 (h n hf).2

/-! ## Structure of the normalized documentation -/

theorem concatAll_map_eq_joinList (c : Char) :
    ∀ (t : List Char) (ts : List (List Char)),
      concatAll ((t :: ts).map (fun x => x ++ [c])) = joinList c (t :: ts) ++ [c] := by
  intro t ts
  induction ts generalizing t with
  | nil => simp [concatAll, joinList]
  | cons u us ih =>
    show (t ++ [c]) ++ concatAll ((u :: us).map (fun x => x ++ [c]))
      = (t ++ c :: joinList c (u :: us)) ++ [c]
    rw [ih u]
    simp [List.append_assoc]

theorem mem_adjustToken {t : List Char} {c : Char}
    (h : c ∈ (adjustToken (String.mk t)).data) : c ∈ t ∨ c = '#' := by
  unfold adjustToken at h
  by_cases hc : ADJUSTED_HEADERS.contains (pyStrip (String.mk t)) = true
  · rw [if_pos hc] at h
    rw [String.data_append] at h
    rcases List.mem_append.mp h with h1 | h1
    · exact Or.inl h1
    · right
      simpa using h1
  · rw [if_neg hc] at h
    exact Or.inl h

theorem splitList_joinList_of_forall (sep : Char) (ts : List (List Char))
    (h : ∀ x ∈ ts, sep ∉ x) (hne : ts ≠ []) :
    splitList sep (joinList sep ts) = ts := by
  cases ts with
  | nil => exact absurd rfl hne
  | cons t ts =>
    exact splitList_joinList sep t ts (h t (List.mem_cons_self t ts))
      (fun x hx => h x (List.mem_cons_of_mem t hx))

/-- The space-split tokens of a normalized line are exactly the adjusted
space-split tokens of the original line. -/
theorem splitList_normLine (l : List Char) :
    splitList ' ' (normLine l)
      = (splitList ' ' l).map (fun t => (adjustToken (String.mk t)).data) := by
  unfold normLine
  apply splitList_joinList_of_forall
  · intro x hx
    rcases List.mem_map.mp hx with ⟨t, ht, hxt⟩
    rw [← hxt]
    intro hsp
    rcases mem_adjustToken hsp with hin | hq
    · exact (mem_splitList ' ' l t ht ' ' hin).2 rfl
    · exact absurd hq (by decide)
  · simp [splitList]

/-- A normalized line contains no newline character. -/
theorem nl_not_mem_normLine {doc : String} {l : List Char}
    (hl : l ∈ splitList '\n' doc.data) : '\n' ∉ normLine l := by
  intro hnl
  unfold normLine at hnl
  rcases mem_joinList ' ' '\n' _ hnl with he | ⟨t', ht', hc⟩
  · exact absurd he (by decide)
  · rcases List.mem_map.mp ht' with ⟨t, ht, hxt⟩
    rw [← hxt] at hc
    rcases mem_adjustToken hc with hin | hq
    · exact (mem_splitList '\n' doc.data l hl '\n'
        ((mem_splitList ' ' l t ht '\n' hin).1)).2 rfl
    · exact absurd hq (by decide)

/-- Splitting the normalized documentation on newlines recovers exactly the
normalized input lines (plus the trailing empty piece after the final
newline). -/
theorem splitList_normalizeDoc (doc : String) :
    splitList '\n' (normalizeDoc doc).data
      = (splitList '\n' doc.data).map normLine ++ [[]] := by
  unfold normalizeDoc
  rw [data_mk]
  have hmm : (splitList '\n' doc.data).map (fun l => normLine l ++ ['\n'])
      = ((splitList '\n' doc.data).map normLine).map (fun x => x ++ ['\n']) := by
    rw [List.map_map]
    rfl
  rw [hmm, splitList_concat]
  intro x hx
  rcases List.mem_map.mp hx with ⟨l, hl, hxl⟩
  rw [← hxl]
  exact nl_not_mem_normLine hl

/-- The normalized documentation always ends with a newline character. -/
theorem normalizeDoc_ends_nl (doc : String) :
    ∃ l, (normalizeDoc doc).data = l ++ ['\n'] := by
  unfold normalizeDoc
  rw [data_mk]
  have hmm : (splitList '\n' doc.data).map (fun l => normLine l ++ ['\n'])
      = ((splitList '\n' doc.data).map normLine).map (fun x => x ++ ['\n']) := by
    rw [List.map_map]
    rfl
  rw [hmm]
  apply concatAll_append_last
  simp [splitList]

theorem adjustToken_not_header {t : String}
    (h : ADJUSTED_HEADERS.contains (pyStrip t) = false) : adjustToken t = t := by
  unfold adjustToken
  rw [h]
  rfl

/-- A token composed entirely of one to six marker characters is stripped to
itself, recognised as a heading, and gets exactly one marker appended. -/
theorem adjustToken_pure {t : String} (h : isPureHeaderToken t = true) :
    adjustToken t = t ++ "#" := by
  unfold isPureHeaderToken at h
  rw [Bool.and_eq_true, Bool.and_eq_true] at h
  rcases h with ⟨⟨h1, h2⟩, h3⟩
  have hall : ∀ b ∈ t.data, b = '#' := by
    intro b hb
    exact beq_iff_eq.mp (List.all_eq_true.mp h3 b hb)
  have hsp : ∀ c ∈ t.data, pyIsSpace c = false := by
    intro c hc
    rw [hall c hc]
    decide
  have hstrip : pyStrip t = t := by
    unfold pyStrip
    rw [dropWhile_all_false hsp, dropTrailing_all_false hsp, mk_data]
  have hrep : t = String.mk (List.replicate t.data.length '#') := by
    have := congrArg String.mk (List.eq_replicate_iff.mpr ⟨rfl, hall⟩ :
      t.data = List.replicate t.data.length '#')
    rw [mk_data] at this
    exact this
  have hmem : t ∈ ADJUSTED_HEADERS := by
    rw [hrep]
    unfold ADJUSTED_HEADERS
    apply List.mem_map.mpr
    refine ⟨t.data.length, ?_, rfl⟩
    rw [List.mem_range'_1]
    constructor
    · exact of_decide_eq_true h1
    · have := of_decide_eq_true h2
      omega
  unfold adjustToken
  rw [hstrip, if_pos (contains_iff.mpr hmem)]

theorem normLine_id {l : List Char}
    (h : ∀ t ∈ splitList ' ' l,
      ADJUSTED_HEADERS.contains (pyStrip (String.mk t)) = false) :
    normLine l = l := by
  unfold normLine
  have hmap : (splitList ' ' l).map (fun t => (adjustToken (String.mk t)).data)
      = (splitList ' ' l).map id := by
    apply List.map_congr_left
    intro t ht
    rw [adjustToken_not_header (h t ht)]
    rfl
  rw [hmap, List.map_id, joinList_splitList]

/-- A documentation string in which no token strips to a heading marker is
passed through the normalizer unchanged, up to the final appended newline:
in particular no whitespace is collapsed. -/
theorem normalizeDoc_id (doc : String)
    (h : ∀ l ∈ splitList '\n' doc.data, ∀ t ∈ splitList ' ' l,
      ADJUSTED_HEADERS.contains (pyStrip (String.mk t)) = false) :
    normalizeDoc doc = doc ++ "\n" := by
  unfold normalizeDoc
  have hmap : (splitList '\n' doc.data).map (fun l => normLine l ++ ['\n'])
      = (splitList '\n' doc.data).map (fun l => l ++ ['\n']) :=
    List.map_congr_left (fun l hl => by rw [normLine_id (h l hl)])
  rw [hmap]
  have hshape : splitList '\n' doc.data
      = (splitListAux '\n' doc.data).1 :: (splitListAux '\n' doc.data).2 := rfl
  rw [hshape, concatAll_map_eq_joinList, ← hshape, joinList_splitList]
  have hdata : doc.data ++ ['\n'] = (doc ++ "\n").data := by
    rw [String.data_append]
  rw [hdata, mk_data]

theorem concatAll_append (a b : List (List Char)) :
    concatAll (a ++ b) = concatAll a ++ concatAll b := by
  induction a with
  | nil => rfl
  | cons x a ih =>
    show x ++ concatAll (a ++ b) = (x ++ concatAll a) ++ concatAll b
    rw [ih, List.append_assoc]

/-! ## The claims -/

/-- C1, counterexample: for the module exposing the documented name `!!!`
(whose sanitized form is empty), a page file is written for `!!!` but no link
line for it appears in `index.md`, so the claimed equivalence fails. -/
theorem c1_counterexample :
    "!!!" ∈ pageNames defaultConfig mC1
    ∧ "!!!" ∉ entryNames defaultConfig mC1
    ∧ strContains (indexContent (start defaultConfig mC1)) "!!!" = false := by
  refine ⟨by decide, by decide, by decide⟩

/-- C1, amended: a symbol name has an index entry if and only if a page was
written for it AND its sanitized form is nonempty; the claimed equivalence
therefore holds exactly for the names whose sanitized form is nonempty. -/
theorem c1_index_iff_page (cfg : Config) (m : PyModule) (name : String) :
    name ∈ entryNames cfg m
      ↔ name ∈ pageNames cfg m ∧ sanitize_file_name name ≠ "" := by
  rw [mem_entryNames, mem_pageNames]
  tauto

/-- C2, counterexample: on the documentation string with tab-separated marker
characters, the code changes the space-split token of `"\t#"` (which is not
composed entirely of marker characters) and leaves the whitespace-separated
tokens of `"#\t#"` undemoted, so the claimed transformation disagrees with the
code under both readings of "whitespace-separated token". -/
theorem c2_counterexample :
    normalizeDoc "\t# #\t#" = "\t## #\t#\n"
    ∧ claimNormalizeS "\t# #\t#" = "\t# #\t#\n"
    ∧ normalizeDoc "\t# #\t#" ≠ claimNormalizeS "\t# #\t#"
    ∧ wsTokens (normalizeDoc "\t# #\t#").data
        ≠ (wsTokens "\t# #\t#".data).map claimTokenStep := by
  refine ⟨by decide, by decide, by decide, by decide⟩

/-- C2, amended: line by line, the space-split tokens of the output are
exactly the adjusted space-split tokens of the input, where a token whose
`strip` is one to six marker characters (in particular every token composed
entirely of one to six marker characters) gets exactly one marker appended at
its end and every other token is unchanged; `"# Title"` becomes `"## Title"`
and `"######"` becomes `"#######"`. -/
theorem c2_heading_demotion (doc : String) :
    (splitList '\n' (normalizeDoc doc).data
        = (splitList '\n' doc.data).map normLine ++ [[]])
    ∧ (∀ l ∈ splitList '\n' doc.data,
        splitList ' ' (normLine l)
          = (splitList ' ' l).map (fun t => (adjustToken (String.mk t)).data))
    ∧ (∀ t : String, isPureHeaderToken t = true → adjustToken t = t ++ "#")
    ∧ (∀ t : String, ADJUSTED_HEADERS.contains (pyStrip t) = false → adjustToken t = t)
    ∧ normalizeDoc "# Title" = "## Title\n"
    ∧ normalizeDoc "######" = "#######\n" := by
  refine ⟨splitList_normalizeDoc doc, fun l _ => splitList_normLine l,
    fun t ht => adjustToken_pure ht, fun t ht => adjustToken_not_header ht,
    by decide, by decide⟩

/-- C2, witness: the amended statement evaluated at concrete tokens and at the
line `"# Title"`. -/
theorem c2_heading_demotion_witness :
    adjustToken "######" = "######" ++ "#"
    ∧ adjustToken "x" = "x"
    ∧ splitList ' ' (normLine "# Title".data)
        = (splitList ' ' "# Title".data).map
            (fun t => (adjustToken (String.mk t)).data) :=
  ⟨(c2_heading_demotion "").2.2.1 "######" (by decide),
    (c2_heading_demotion "").2.2.2.1 "x" (by decide),
    (c2_heading_demotion "# Title").2.1 "# Title".data (by decide)⟩

/-- C3, counterexample: the line `"a  b"` is emitted with its two consecutive
spaces intact, so runs of whitespace are not collapsed to a single space. -/
theorem c3_counterexample :
    normalizeDoc "a  b" = "a  b\n"
    ∧ strContains (normalizeDoc "a  b") "  " = true
    ∧ normalizeDoc "a  b" ≠ "a b\n" := by
  refine ⟨by decide, by decide, by decide⟩

/-- C3, amended: rejoining the split-on-single-space tokens with single spaces
is the identity on every line (the empty tokens produced by adjacent spaces
reproduce the original spacing), so a documentation string without heading
tokens passes through unchanged except for the final appended newline;
whitespace is preserved, never collapsed. -/
theorem c3_whitespace_preserved (doc : String)
    (h : ∀ l ∈ splitList '\n' doc.data, ∀ t ∈ splitList ' ' l,
      ADJUSTED_HEADERS.contains (pyStrip (String.mk t)) = false) :
    normalizeDoc doc = doc ++ "\n"
    ∧ ∀ l : List Char, joinList ' ' (splitList ' ' l) = l :=
  ⟨normalizeDoc_id doc h, fun l => joinList_splitList ' ' l⟩

/-- C3, witness: the amended statement evaluated on the double-spaced line. -/
theorem c3_whitespace_preserved_witness :
    normalizeDoc "a  b" = "a  b" ++ "\n" :=
  (c3_whitespace_preserved "a  b" (by decide)).1

/-- C4, counterexample: for the symbol `f` with documentation `"hello"` the
written page content is the title line immediately followed by the body, with
no blank line in between, so it differs from the claimed layout. -/
theorem c4_counterexample :
    (process_method defaultConfig mC4 "f").2
      = some ("docs/reference/f.md", pageContent "f" "hello")
    ∧ pageContent "f" "hello" = "# `f`\nhello\n\n"
    ∧ claimPageContent "f" "hello" = "# `f`\n\nhello\n\n"
    ∧ pageContent "f" "hello" ≠ claimPageContent "f" "hello" := by
  refine ⟨by decide, by decide, by decide, by decide⟩

/-- C4, amended: every written page consists of the title line (the symbol
name in inline code under a level-1 marker) terminated by a newline, then
immediately the normalized body (itself newline-terminated, so the file ends
with a blank line), then one extra newline; no blank line separates the title
from the body.  Line by line: the first line is the title, the following
lines are the normalized documentation lines, and the file ends with the two
empty pieces produced by the final two newlines. -/
theorem c4_page_layout (cfg : Config) (m : PyModule) (nm path c : String)
    (h : (nm, path, c) ∈ (start cfg m).pages) :
    ∃ d, m.doc nm = some d
      ∧ c = "# `" ++ nm ++ "`\n" ++ normalizeDoc d ++ "\n"
      ∧ (∃ l, (normalizeDoc d).data = l ++ ['\n'])
      ∧ ('\n' ∉ nm.data →
          splitList '\n' c.data
            = (['#', ' ', '`'] ++ nm.data ++ ['`'])
                :: ((splitList '\n' d.data).map normLine ++ [[], []])) := by
  rw [start_pages] at h
  rcases List.mem_filterMap.mp h with ⟨a, _, hx⟩
  unfold pageOf at hx
  cases hd : m.doc a with
  | none => rw [hd] at hx; simp at hx
  | some d =>
    rw [hd] at hx
    simp only [Option.map_some'] at hx
    have hx' := Option.some.inj hx
    have h1 : a = nm := congrArg Prod.fst hx'
    have h3 : pageContent a d = c := congrArg (fun y => y.2.2) hx'
    subst h1
    refine ⟨d, hd, by rw [← h3]; rfl, normalizeDoc_ends_nl d, ?_⟩
    intro hnm
    have hc : c.data = (['#', ' ', '`'] ++ a.data ++ ['`'])
        ++ '\n' :: ((normalizeDoc d).data ++ ['\n']) := by
      rw [← h3]
      unfold pageContent
      rw [String.data_append, String.data_append, String.data_append,
        String.data_append]
      show ['#', ' ', '`'] ++ a.data ++ ['`', '\n'] ++ (normalizeDoc d).data ++ ['\n']
        = (['#', ' ', '`'] ++ a.data ++ ['`']) ++ '\n' :: ((normalizeDoc d).data ++ ['\n'])
      simp [List.append_assoc]
    rw [hc]
    have hT : '\n' ∉ ['#', ' ', '`'] ++ a.data ++ ['`'] := by
      intro hmem
      rcases List.mem_append.mp hmem with hca | hca
      · rcases List.mem_append.mp hca with hcb | hcb
        · simp at hcb
        · exact hnm hcb
      · simp at hca
    rw [splitList_append_sep '\n' _ _ hT]
    have hnd : (normalizeDoc d).data ++ ['\n']
        = concatAll ((((splitList '\n' d.data).map normLine) ++ [[]]).map
            (fun x => x ++ ['\n'])) := by
      rw [List.map_append, concatAll_append]
      show (normalizeDoc d).data ++ ['\n']
        = concatAll (((splitList '\n' d.data).map normLine).map (fun x => x ++ ['\n']))
            ++ ([] ++ ['\n'] ++ [])
      rw [List.map_map]
      show (normalizeDoc d).data ++ ['\n']
        = concatAll ((splitList '\n' d.data).map (fun l => normLine l ++ ['\n']))
            ++ ['\n']
      unfold normalizeDoc
      rw [data_mk]
    rw [hnd, splitList_concat]
    · simp [List.append_assoc]
    · intro x hx2
      rcases List.mem_append.mp hx2 with hxa | hxa
      · rcases List.mem_map.mp hxa with ⟨l, hl, hxl⟩
        rw [← hxl]
        exact nl_not_mem_normLine hl
      · have : x = [] := by simpa using hxa
        rw [this]
        exact List.not_mem_nil '\n'

/-- C4, witness: the amended layout evaluated at the page written for `f`. -/
theorem c4_page_layout_witness :
    ∃ d, mC4.doc "f" = some d
      ∧ pageContent "f" "hello" = "# `f`" ++ "\n" ++ normalizeDoc d ++ "\n"
      ∧ splitList '\n' (pageContent "f" "hello").data
          = ['#', ' ', '`', 'f', '`'] :: ["hello".data, [], []] := by
  rcases c4_page_layout defaultConfig mC4 "f" "docs/reference/f.md"
      (pageContent "f" "hello") (by decide) with ⟨d, hd, hc, _, hlines⟩
  have hdval : d = "hello" := by
    have : some d = some "hello" := by rw [← hd]; decide
    exact Option.some.inj this
  subst hdval
  refine ⟨"hello", hd, by rw [hc]; rfl, ?_⟩
  have := hlines (by decide)
  rw [this]
  decide

/-- C5: when every name in the filtered catalog is documented and has a
nonempty sanitized name, the index entries are exactly the priority names
present in the catalog, in priority order, followed by the remaining catalog
names in catalog enumeration order; in particular for any enumeration order
of the catalog `{a, b, c}` with priority `[c, a]` the index order is
`c, a, b`. -/
theorem c5_index_order (cfg : Config) (m : PyModule)
    (h : ∀ f ∈ filteredFunctions cfg m, (m.doc f).isSome ∧ sanitize_file_name f ≠ "") :
    (start cfg m).entries.map (fun e => e.1) = orderedNames cfg m
    ∧ ∀ names : List String, names.Perm ["a", "b", "c"] →
        (start ⟨"out", ["c", "a"], []⟩
            ⟨names, fun _ => some "d"⟩).entries.map (fun e => e.1)
          = ["c", "a", "b"] := by
  constructor
  · exact entries_names_eq cfg m h
  · intro names hperm
    have hmem3 : ∀ f ∈ names, f = "a" ∨ f = "b" ∨ f = "c" := by
      intro f hf
      have := hperm.mem_iff.mp hf
      simpa using this
    have hfun : filteredFunctions ⟨"out", ["c", "a"], []⟩ ⟨names, fun _ => some "d"⟩
        = names := by
      unfold filteredFunctions
      apply List.filter_eq_self.mpr
      intro f hf
      rcases hmem3 f hf with h1 | h1 | h1 <;> rw [h1] <;> decide
    have hdoc : ∀ f ∈ filteredFunctions ⟨"out", ["c", "a"], []⟩ ⟨names, fun _ => some "d"⟩,
        ((⟨names, fun _ => some "d"⟩ : PyModule).doc f).isSome
          ∧ sanitize_file_name f ≠ "" := by
      intro f hf
      rw [hfun] at hf
      rcases hmem3 f hf with h1 | h1 | h1 <;> rw [h1] <;> exact ⟨rfl, by decide⟩
    rw [entries_names_eq _ _ hdoc]
    unfold orderedNames
    rw [hfun]
    have hca : ["c", "a"].filter
        (fun p => names.contains p) = ["c", "a"] := by
      apply List.filter_eq_self.mpr
      intro p hp
      have hp2 : p = "c" ∨ p = "a" := by simpa using hp
      have hcmem : "c" ∈ names := hperm.mem_iff.mpr (by decide)
      have hamem : "a" ∈ names := hperm.mem_iff.mpr (by decide)
      rcases hp2 with h1 | h1 <;> rw [h1]
      · exact contains_iff.mpr hcmem
      · exact contains_iff.mpr hamem
    have hb : names.filter (fun f => !(["c", "a"].contains f)) = ["b"] := by
      have hall : ∀ x ∈ names.filter (fun f => !(["c", "a"].contains f)), x = "b" := by
        intro x hx
        rcases List.mem_filter.mp hx with ⟨hxm, hxp⟩
        rcases hmem3 x hxm with h1 | h1 | h1
        · rw [h1] at hxp
          exact absurd hxp (by decide)
        · exact h1
        · rw [h1] at hxp
          exact absurd hxp (by decide)
      have hlen : (names.filter (fun f => !(["c", "a"].contains f))).length = 1 := by
        rw [← List.countP_eq_length_filter, hperm.countP_eq]
        decide
      rcases List.length_eq_one.mp hlen with ⟨x, hx⟩
      rw [hx, hall x (hx ▸ List.mem_cons_self x [])]
    rw [hca, hb]
    rfl

/-- C5, witness: the ordering statement evaluated at the source configuration
with the priority symbol `ora`, and at a scrambled enumeration of `{a, b, c}`
with priority `[c, a]`. -/
theorem c5_index_order_witness :
    (start defaultConfig mW5).entries.map (fun e => e.1)
        = orderedNames defaultConfig mW5
    ∧ (start ⟨"out", ["c", "a"], []⟩
          ⟨["b", "c", "a"], fun _ => some "d"⟩).entries.map (fun e => e.1)
        = ["c", "a", "b"] :=
  ⟨(c5_index_order defaultConfig mW5 (by decide)).1,
    (c5_index_order defaultConfig mW5 (by decide)).2 ["b", "c", "a"] (by decide)⟩

/-- C6: a symbol whose documentation is absent produces no page file and no
index entry, and removing it from the collaborator's enumeration leaves the
whole run (every page write and every index entry, in order) unchanged, so
every other symbol is still processed and ordered exactly as before. -/
theorem c6_missing_doc (cfg : Config) (m : PyModule) (name : String)
    (h : m.doc name = none) :
    name ∉ pageNames cfg m
    ∧ name ∉ entryNames cfg m
    ∧ start cfg ⟨m.names.filter (fun f => !(f == name)), m.doc⟩ = start cfg m := by
  refine ⟨?_, ?_, start_removeName cfg m name h⟩
  · intro hp
    have := (mem_pageNames.mp hp).2
    rw [h] at this
    simp at this
  · intro he
    have := (mem_entryNames.mp he).2.1
    rw [h] at this
    simp at this

/-- C6, witness: evaluated at a module exposing `beta` without documentation
next to the documented `alpha`. -/
theorem c6_missing_doc_witness :
    "beta" ∉ pageNames defaultConfig mW6
    ∧ "beta" ∉ entryNames defaultConfig mW6
    ∧ start defaultConfig ⟨mW6.names.filter (fun f => !(f == "beta")), mW6.doc⟩
        = start defaultConfig mW6 :=
  c6_missing_doc defaultConfig mW6 "beta" (by decide)

/-- C7, counterexample: the sanitizer keeps leading whitespace, so
`sanitize_file_name "  trailing.  "` is `"  trailing."`, not the claimed
`"trailing."`. -/
theorem c7_counterexample :
    sanitize_file_name "  trailing.  " = "  trailing."
    ∧ sanitize_file_name "  trailing.  " ≠ "trailing." := by
  refine ⟨by decide, by decide⟩

/-- C7, amended: the sanitizer keeps exactly the alphanumeric characters and
space, period and underscore (its output is a subsequence of the input all of
whose characters are kept ones), trims trailing whitespace only (the last
character of a nonempty result is never whitespace, but leading whitespace
survives), is total and deterministic, and maps the claimed examples to
`"MyFuncName"` and `"  trailing."`. -/
theorem c7_sanitize :
    sanitize_file_name "My/Func:Name!" = "MyFuncName"
    ∧ sanitize_file_name "  trailing.  " = "  trailing."
    ∧ sanitize_file_name "" = ""
    ∧ (∀ s : String, List.Sublist (sanitize_file_name s).data s.data)
    ∧ (∀ s : String, ∀ c ∈ (sanitize_file_name s).data,
        (c.isAlphanum || keepcharacters.contains c) = true)
    ∧ (∀ s : String, ∀ c : Char,
        (sanitize_file_name s).data.getLast? = some c → pyIsSpace c = false) := by
  refine ⟨by decide, by decide, rfl, ?_, ?_, ?_⟩
  · intro s
    exact (dropTrailing_sublist pyIsSpace _).trans (List.filter_sublist s.data)
  · intro s c hc
    have hmem : c ∈ s.data.filter (fun c => c.isAlphanum || keepcharacters.contains c) :=
      (dropTrailing_sublist pyIsSpace _).subset hc
    exact (List.mem_filter.mp hmem).2
  · intro s c hc
    exact dropTrailing_getLast? hc

/-- C7, witness: the universally quantified parts of the amended statement
evaluated on a concrete input. -/
theorem c7_sanitize_witness :
    List.Sublist (sanitize_file_name "a b!").data "a b!".data
    ∧ ('b'.isAlphanum || keepcharacters.contains 'b') = true
    ∧ pyIsSpace 'b' = false :=
  ⟨c7_sanitize.2.2.2.1 "a b!",
    c7_sanitize.2.2.2.2.1 "a b!" 'b' (by decide),
    c7_sanitize.2.2.2.2.2 "a b!" 'b' (by decide)⟩

/-- C8: a name in the skip set, or containing a double underscore, never has
a page written for it and never receives an index entry. -/
theorem c8_excluded (cfg : Config) (m : PyModule) (name : String)
    (h : name ∈ cfg.skip ∨ strContains name "__" = true) :
    name ∉ pageNames cfg m ∧ name ∉ entryNames cfg m := by
  have hnot : name ∉ filteredFunctions cfg m := by
    intro hmem
    rcases mem_filteredFunctions_props hmem with ⟨h1, h2⟩
    rcases h with hskip | hdun
    · exact h2 hskip
    · rw [hdun] at h1
      simp at h1
  exact ⟨fun hp => hnot (mem_orderedNames_sub (mem_pageNames.mp hp).1),
    fun he => hnot (mem_orderedNames_sub (mem_entryNames.mp he).1)⟩

/-- C8, witness: the skipped name `webgestaltpy`, although documented and
enumerated, is absent from the pages and the index. -/
theorem c8_excluded_witness :
    "webgestaltpy" ∉ pageNames defaultConfig mW8
    ∧ "webgestaltpy" ∉ entryNames defaultConfig mW8 :=
  c8_excluded defaultConfig mW8 "webgestaltpy" (Or.inl (by decide))

/-- C9: a run writes each file with content depending only on the collaborator
and the configuration, so running the generator a second time on the file
system produced by the first run rewrites every file with identical bytes and
leaves the file system unchanged. -/
theorem c9_idempotent (cfg : Config) (m : PyModule) (fs : FS) :
    runOn cfg m (runOn cfg m fs) = runOn cfg m fs :=
  foldl_applyWrite_idem (runWrites cfg m) fs

/-- C10: the internal-name filter is a substring test, so any enumerated name
containing a double underscore anywhere, not only dunder-bracketed ones, has
no page written and never appears in the index. -/
theorem c10_dunder_excluded (cfg : Config) (m : PyModule) (name : String)
    (h : strContains name "__" = true) :
    name ∉ pageNames cfg m ∧ name ∉ entryNames cfg m := by
  have hnot : name ∉ filteredFunctions cfg m := by
    intro hmem
    rcases mem_filteredFunctions_props hmem with ⟨h1, _⟩
    rw [h] at h1
    simp at h1
  exact ⟨fun hp => hnot (mem_orderedNames_sub (mem_pageNames.mp hp).1),
    fun he => hnot (mem_orderedNames_sub (mem_entryNames.mp he).1)⟩

/-- C10, witness: the documented, enumerated name `meta__extra` (double
underscore in the middle, not dunder-bracketed) produces no page and no index
entry. -/
theorem c10_dunder_excluded_witness :
    "meta__extra" ∉ pageNames defaultConfig mW10
    ∧ "meta__extra" ∉ entryNames defaultConfig mW10 :=
  c10_dunder_excluded defaultConfig mW10 "meta__extra" (by decide)

end BuildDocs
